import Mathlib

/-!
Verification of the pytimelog terminal dashboard against its specification.

Shallow embedding conventions:
* absolute instants and durations are `Int` values counted in seconds
  (Python `datetime` values stored UTC-normalized; `timedelta(minutes=1)` is `60`);
* Python strings are `List Char`; `str.strip` / `str.split` are embedded below;
* fallible operations return `Option` / `Except`.

The embedded functions keep the source names of `src/pytimelog/tui.py` and
`src/src/pytimelog/storage.py` where Lean's grammar allows it (`end` is a Lean
keyword, so the `Entry.end` field is called `stop`).
-/

/-- Python `str.strip()`: remove leading and trailing whitespace. -/
def pyStrip (s : List Char) : List Char :=
  ((s.dropWhile Char.isWhitespace).reverse.dropWhile Char.isWhitespace).reverse

/-- Helper for `pySplit`: `acc` is the current word, reversed. -/
def pySplitAux : List Char → List Char → List (List Char)
  | [], acc => if acc = [] then [] else [acc.reverse]
  | c :: cs, acc =>
    if c.isWhitespace then
      if acc = [] then pySplitAux cs [] else acc.reverse :: pySplitAux cs []
    else pySplitAux cs (c :: acc)

/-- Python `str.split()` with no argument: split on runs of whitespace,
discarding empty words. -/
def pySplit (s : List Char) : List (List Char) :=
  pySplitAux s []

/-- `storage.Entry`: a logged interval.  `start`/`stop` are UTC instants in
seconds; `stop = none` is the open ("still running") sentinel.  The Python
field `end` is renamed `stop` because `end` is a Lean keyword. -/
structure Entry where
  start : Int
  stop : Option Int
  text : List Char
  deriving DecidableEq, Repr

/-- `storage.Entry.tags`: words of the label that start with `#` and have at
least one further character, with the `#` removed. -/
def Entry.tags (e : Entry) : List (List Char) :=
  (pySplit e.text).filterMap fun w =>
    if w.head? = some '#' ∧ 1 < w.length then some (w.drop 1) else none

/-- `tui.clamp_duration` (identical to `cli.clamp_duration`): clip an entry to
the window `[s, e)` using `now` for an open entry. -/
def clamp_duration (entry : Entry) (s e now : Int) : Int :=
  let entry_end := entry.stop.getD now
  let latest_start := max entry.start s
  let earliest_end := min entry_end e
  if earliest_end ≤ latest_start then 0 else earliest_end - latest_start

/-- Claim C1: for every interval, window `[ws, we)` and reference instant
`now`, `clamp_duration` equals `max 0 (min (end-or-now) we - max start ws)`;
it is always non-negative and never exceeds the window's own duration
`we - ws`. -/
theorem C1_clip_spec (entry : Entry) (ws we now : Int) (hw : ws ≤ we) :
    clamp_duration entry ws we now
      = max 0 (min (entry.stop.getD now) we - max entry.start ws)
    ∧ 0 ≤ clamp_duration entry ws we now
    ∧ clamp_duration entry ws we now ≤ we - ws := by
  unfold clamp_duration
  dsimp only
  split <;> omega

/-- Witness for C1 at a concrete interval and window. -/
theorem C1_clip_spec_witness :
    clamp_duration ⟨100, some 400, []⟩ 200 1000 500
      = max 0 (min ((⟨100, some 400, []⟩ : Entry).stop.getD 500) 1000
          - max (⟨100, some 400, []⟩ : Entry).start 200)
    ∧ 0 ≤ clamp_duration ⟨100, some 400, []⟩ 200 1000 500
    ∧ clamp_duration ⟨100, some 400, []⟩ 200 1000 500 ≤ 1000 - 200 :=
  C1_clip_spec ⟨100, some 400, []⟩ 200 1000 500 (by decide)

/-- `storage.find_open`: index of the last entry whose end is unset, scanning
indices in reverse order as the source does. -/
def find_open : List Entry → Option Nat
  | [] => none
  | e :: rest =>
    match find_open rest with
    | some i => some (i + 1)
    | none => if e.stop.isNone then some 0 else none

theorem find_open_lt {entries : List Entry} {idx : Nat}
    (h : find_open entries = some idx) : idx < entries.length := by
  induction entries generalizing idx with
  | nil => simp [find_open] at h
  | cons e rest ih =>
    cases hr : find_open rest with
    | some i =>
      have heq : find_open (e :: rest) = some (i + 1) := by rw [find_open, hr]
      rw [heq] at h
      simp only [Option.some.injEq] at h
      subst h
      simp only [List.length_cons]
      exact Nat.succ_lt_succ (ih hr)
    | none =>
      by_cases hs : e.stop.isNone
      · have heq : find_open (e :: rest) = some 0 := by rw [find_open, hr, if_pos hs]
        rw [heq] at h
        simp only [Option.some.injEq] at h
        subst h
        simp
      · have heq : find_open (e :: rest) = none := by rw [find_open, hr, if_neg hs]
        rw [heq] at h
        cases h

/-- `tui.TerminalUI.stop_entry`, restricted to its effect on the stored
sequence: close the open entry at `now`, forcing `start + 60` seconds (one
minute) when `now` is not strictly after the start.  When no entry is open the
sequence is unchanged (the source only shows a notification).  The inner
`Option.getD` default is unreachable because `find_open` returns in-range
indices (`find_open_lt`). -/
def stop_entry (entries : List Entry) (now : Int) : List Entry :=
  match find_open entries with
  | none => entries
  | some idx =>
    let e := entries[idx]?.getD ⟨0, none, []⟩
    let stop := if now ≤ e.start then e.start + 60 else now
    entries.set idx ⟨e.start, some stop, e.text⟩

/-- Claim C4: stopping when an open interval started at `T0` exists closes
exactly that interval at the computed stop instant, except that a computed
stop not strictly after `T0` stores end `T0 + 60` seconds (one minute); the
stored closed interval has strictly positive duration, and no other entry
changes. -/
theorem C4_stop_entry_spec (entries : List Entry) (now : Int) (idx : Nat)
    (e : Entry) (hfind : find_open entries = some idx)
    (hget : entries[idx]? = some e) :
    (stop_entry entries now)[idx]? =
      some ⟨e.start, some (if now ≤ e.start then e.start + 60 else now), e.text⟩
    ∧ (∀ en, (stop_entry entries now)[idx]? =
        some ⟨e.start, some en, e.text⟩ → e.start < en)
    ∧ (now ≤ e.start →
        (stop_entry entries now)[idx]? = some ⟨e.start, some (e.start + 60), e.text⟩)
    ∧ ∀ j, j ≠ idx → (stop_entry entries now)[j]? = entries[j]? := by
  have hlt : idx < entries.length := find_open_lt hfind
  unfold stop_entry
  rw [hfind]
  simp only [hget, Option.getD_some]
  refine ⟨?_, ?_, ?_, ?_⟩
  · exact List.getElem?_set_self hlt
  · intro en hen
    rw [List.getElem?_set_self hlt] at hen
    simp only [Option.some.injEq, Entry.mk.injEq] at hen
    obtain ⟨-, h2, -⟩ := hen
    split at h2 <;> omega
  · intro hle
    rw [List.getElem?_set_self hlt]
    simp [if_pos hle]
  · intro j hj
    exact List.getElem?_set_ne (by omega)

/-- Witness for C4: a log with one closed and one open entry, stopped at an
instant earlier than the open entry's start (the floor rule fires). -/
theorem C4_stop_entry_spec_witness :
    (stop_entry [⟨0, some 50, []⟩, ⟨100, none, ['a']⟩] 90)[1]? =
      some ⟨100, some (if (90 : Int) ≤ 100 then 100 + 60 else 90), ['a']⟩
    ∧ (∀ en, (stop_entry [⟨0, some 50, []⟩, ⟨100, none, ['a']⟩] 90)[1]? =
        some ⟨100, some en, ['a']⟩ → (100 : Int) < en)
    ∧ ((90 : Int) ≤ 100 →
        (stop_entry [⟨0, some 50, []⟩, ⟨100, none, ['a']⟩] 90)[1]? =
          some ⟨100, some (100 + 60), ['a']⟩)
    ∧ ∀ j, j ≠ 1 →
        (stop_entry [⟨0, some 50, []⟩, ⟨100, none, ['a']⟩] 90)[j]? =
          [(⟨0, some 50, []⟩ : Entry), ⟨100, none, ['a']⟩][j]? :=
  C4_stop_entry_spec [⟨0, some 50, []⟩, ⟨100, none, ['a']⟩] 90 1 ⟨100, none, ['a']⟩
    (by decide) (by decide)

/-- `tui.TerminalUI.prompt`, as a pure loop over the pending key codes
(`curses` `getch` results; the read blocks, so a run that exhausts `keys`
while still prompting yields `none`).  `buffer` accumulates typed characters.
Escape (27) returns `("", cancelled := true)`; Enter (10/13) returns the
stripped buffer with `cancelled := false`; backspace (`KEY_BACKSPACE` = 263,
127, 8) removes the last character; any other code `≤ 255` is appended. -/
def promptLoop : List Nat → List Char → Option (List Char × Bool)
  | [], _ => none
  | ch :: rest, buffer =>
    if ch = 27 then some ([], true)
    else if ch = 10 ∨ ch = 13 then some (pyStrip buffer, false)
    else if ch = 263 ∨ ch = 127 ∨ ch = 8 then promptLoop rest buffer.dropLast
    else if ch ≤ 255 then promptLoop rest (buffer ++ [Char.ofNat ch])
    else promptLoop rest buffer

/-- `tui.TerminalUI.start_entry`, restricted to its effect on the stored
sequence, with the prompt's result `(text, cancelled)` passed in: append a new
open entry starting at `now` only when the prompt confirmed non-empty text and
no entry is open; otherwise (cancel, empty text, already-running) only a
notification is shown and the store is untouched. -/
def start_entry (entries : List Entry) (text : List Char) (cancelled : Bool)
    (now : Int) : List Entry :=
  if cancelled then entries
  else if text = [] then entries
  else if (find_open entries).isSome then entries
  else entries ++ [⟨now, none, text⟩]

/-- Claim C5: no store mutation happens on cancel, on empty text, or when an
open interval exists; a new open interval is appended exactly when the prompt
confirms non-empty text and nothing is open.  The prompt itself turns
"type `Fix bug`, then Escape" into a cancelled result with empty text. -/
theorem C5_start_entry_spec (entries : List Entry) (text : List Char)
    (cancelled : Bool) (now : Int) :
    (cancelled = true → start_entry entries text cancelled now = entries)
    ∧ (text = [] → start_entry entries text cancelled now = entries)
    ∧ ((find_open entries).isSome → start_entry entries text cancelled now = entries)
    ∧ (cancelled = false → text ≠ [] → find_open entries = none →
        start_entry entries text cancelled now = entries ++ [⟨now, none, text⟩])
    ∧ promptLoop [70, 105, 120, 32, 98, 117, 103, 27] [] = some ([], true) := by
  refine ⟨?_, ?_, ?_, ?_, by decide⟩
  · intro hc
    simp [start_entry, hc]
  · intro ht
    simp [start_entry, ht]
  · intro ho
    simp [start_entry, ho]
  · intro hc ht ho
    simp [start_entry, hc, ht, ho]

/-- Witness for C5: the cancelled branch on a concrete store. -/
theorem C5_start_entry_spec_witness :
    ((true : Bool) = true → start_entry [⟨0, none, ['a']⟩] ['b'] true 5 = [⟨0, none, ['a']⟩])
    ∧ (['b'] = ([] : List Char) → start_entry [⟨0, none, ['a']⟩] ['b'] true 5 = [⟨0, none, ['a']⟩])
    ∧ ((find_open [⟨0, none, ['a']⟩]).isSome →
        start_entry [⟨0, none, ['a']⟩] ['b'] true 5 = [⟨0, none, ['a']⟩])
    ∧ ((true : Bool) = false → ['b'] ≠ ([] : List Char) →
        find_open [⟨0, none, ['a']⟩] = none →
        start_entry [⟨0, none, ['a']⟩] ['b'] true 5 = [⟨0, none, ['a']⟩] ++ [⟨5, none, ['b']⟩])
    ∧ promptLoop [70, 105, 120, 32, 98, 117, 103, 27] [] = some ([], true) :=
  C5_start_entry_spec [⟨0, none, ['a']⟩] ['b'] true 5

/-- One pass of the inner `for idx in range(len(result))` loop of
`tui.TerminalUI._shrink_to_total`: walking left to right, decrement each value
greater than 1 while the running sum of the whole list (`s`) still exceeds
`total`; once `s ≤ total` the remaining values are kept unchanged (the
`break`). -/
def shrink_pass : List Int → Int → Int → List Int
  | [], _, _ => []
  | v :: rest, total, s =>
    if s ≤ total then v :: rest
    else if 1 < v then (v - 1) :: shrink_pass rest total (s - 1)
    else v :: shrink_pass rest total s

/-- The `while sum(result) > total and any(v > 1 ...)` loop of
`tui.TerminalUI._shrink_to_total`, with explicit fuel.  Each executed pass
strictly decreases the sum, so `values.sum.toNat + 1` passes always suffice
for the loop to reach its exit condition. -/
def shrink_loop : Nat → List Int → Int → List Int
  | 0, values, _ => values
  | fuel + 1, values, total =>
    if values.sum > total ∧ values.any (fun v => 1 < v) then
      shrink_loop fuel (shrink_pass values total values.sum) total
    else values

/-- `tui.TerminalUI._shrink_to_total`. -/
def shrink_to_total (values : List Int) (total : Int) : List Int :=
  if total ≤ 0 then List.replicate values.length 0
  else shrink_loop (values.sum.toNat + 1) values total

/-- `tui.TerminalUI.allocate_left_heights`: split `total` rows among the
day/week/top panels (minimum heights `[3, 5, 4]`, weights `[2, 3, 3]`).
Python's `int(remaining * w / total_weight)` is floor division here because
`remaining > 0` on that branch.  The fallback arm of the `match` is
unreachable: `shrink_to_total` preserves the length of its input list. -/
def allocate_left_heights (total : Int) : Int × Int × Int :=
  if total ≤ 0 then (0, 0, 0)
  else
    let mins : List Int := [3, 5, 4]
    let base_sum := mins.sum
    if total ≤ base_sum then
      match shrink_to_total mins total with
      | [a, b, c] => (a, b, c)
      | _ => (0, 0, 0)
    else
      let remaining := total - base_sum
      let weights : List Int := [2, 3, 3]
      let total_weight := weights.sum
      let extra_day := remaining * 2 / total_weight
      let extra_week := remaining * 3 / total_weight
      let extra_top := remaining - extra_day - extra_week
      (3 + extra_day, 5 + extra_week, 4 + extra_top)

/-- Sum of the three allocated panel heights. -/
def heightsSum (h : Int × Int × Int) : Int :=
  h.1 + h.2.1 + h.2.2

/-- Counterexample to claim C2 as stated: for the positive row budget `T = 1`
the allocator returns heights `(1, 1, 1)` (the shrink loop never goes below 1
per panel), whose sum is 3, not 1. -/
theorem C2_counterexample :
    (0 : Int) < 1 ∧ allocate_left_heights 1 = (1, 1, 1)
      ∧ heightsSum (allocate_left_heights 1) ≠ 1 := by
  decide

/-- Claim C2, amended: `T ≤ 0` yields all-zero heights; any `T > 0` yields
non-negative (indeed ≥ 1) heights; the heights sum to exactly `T` whenever
`T ≥ 3` (three panels, one row each, is the least the shrink loop produces —
for `T = 1` or `2` the sum is 3); and when space is abundant (`T > 12`, the
sum of the minimum heights) the integer remainder of the weighted split goes
entirely to the last panel. -/
theorem C2_allocate_left_heights_spec (total : Int) :
    (total ≤ 0 → allocate_left_heights total = (0, 0, 0))
    ∧ (0 < total →
        0 ≤ (allocate_left_heights total).1
        ∧ 0 ≤ (allocate_left_heights total).2.1
        ∧ 0 ≤ (allocate_left_heights total).2.2)
    ∧ (3 ≤ total → heightsSum (allocate_left_heights total) = total)
    ∧ (12 < total →
        allocate_left_heights total =
          (3 + (total - 12) * 2 / 8, 5 + (total - 12) * 3 / 8,
            4 + ((total - 12) - (total - 12) * 2 / 8 - (total - 12) * 3 / 8))) := by
  by_cases h0 : total ≤ 0
  · exact ⟨fun _ => by simp [allocate_left_heights, if_pos h0],
      fun h => absurd h (by omega), fun h => absurd h (by omega),
      fun h => absurd h (by omega)⟩
  · by_cases h12 : total ≤ 12
    · have h1 : 1 ≤ total := by omega
      interval_cases total <;> decide
    · have heq : allocate_left_heights total =
          (3 + (total - 12) * 2 / 8, 5 + (total - 12) * 3 / 8,
            4 + ((total - 12) - (total - 12) * 2 / 8 - (total - 12) * 3 / 8)) := by
        rw [allocate_left_heights, if_neg h0]
        norm_num
        intro h
        exact absurd h h12
      have e2 := Int.ediv_add_emod ((total - 12) * 2) 8
      have e3 := Int.ediv_add_emod ((total - 12) * 3) 8
      have m2a := Int.emod_nonneg ((total - 12) * 2) (by norm_num : (8 : Int) ≠ 0)
      have m2b := Int.emod_lt_of_pos ((total - 12) * 2) (by norm_num : (0 : Int) < 8)
      have m3a := Int.emod_nonneg ((total - 12) * 3) (by norm_num : (8 : Int) ≠ 0)
      have m3b := Int.emod_lt_of_pos ((total - 12) * 3) (by norm_num : (0 : Int) < 8)
      refine ⟨fun h => absurd h h0, fun _ => ?_, fun _ => ?_, fun _ => heq⟩
      · rw [heq]
        refine ⟨?_, ?_, ?_⟩ <;> dsimp only <;> omega
      · rw [heightsSum, heq]
        dsimp only
        omega

/-- Witness for C2 (amended) at the abundant budget `T = 20`. -/
theorem C2_allocate_left_heights_spec_witness :
    ((20 : Int) ≤ 0 → allocate_left_heights 20 = (0, 0, 0))
    ∧ ((0 : Int) < 20 →
        0 ≤ (allocate_left_heights 20).1
        ∧ 0 ≤ (allocate_left_heights 20).2.1
        ∧ 0 ≤ (allocate_left_heights 20).2.2)
    ∧ ((3 : Int) ≤ 20 → heightsSum (allocate_left_heights 20) = 20)
    ∧ ((12 : Int) < 20 →
        allocate_left_heights 20 =
          (3 + (20 - 12) * 2 / 8, 5 + (20 - 12) * 3 / 8,
            4 + ((20 - 12) - (20 - 12) * 2 / 8 - (20 - 12) * 3 / 8))) :=
  C2_allocate_left_heights_spec 20

/-- Python `dict` update `totals[tag] = totals.get(tag, 0) + duration`,
on an insertion-ordered association list (Python dicts preserve insertion
order): bump the existing key in place, else append at the end. -/
def dictAdd : List (List Char × Int) → List Char → Int → List (List Char × Int)
  | [], k, d => [(k, d)]
  | (k', v) :: rest, k, d =>
    if k' = k then (k', v + d) :: rest else (k', v) :: dictAdd rest k d

/-- `totals.get(t, 0)`: value of the first binding of `t`, defaulting to 0. -/
def dval : List (List Char × Int) → List Char → Int
  | [], _ => 0
  | (k, v) :: rest, t => if k = t then v else dval rest t

theorem dval_dictAdd (ts : List (List Char × Int)) (k : List Char) (d : Int)
    (t : List Char) :
    dval (dictAdd ts k d) t = dval ts t + if k = t then d else 0 := by
  induction ts with
  | nil => simp [dictAdd, dval]
  | cons p rest ih =>
    obtain ⟨k', v⟩ := p
    by_cases hk : k' = k
    · subst hk
      rw [dictAdd, if_pos rfl]
      by_cases ht : k' = t
      · subst ht
        simp [dval]
      · simp [dval, ht]
    · rw [dictAdd, if_neg hk]
      by_cases ht : k' = t
      · subst ht
        have : k ≠ k' := fun h => hk h.symm
        simp [dval, this]
      · simp [dval, ht, ih]

theorem map_fst_dictAdd (ts : List (List Char × Int)) (k : List Char) (d : Int) :
    (dictAdd ts k d).map Prod.fst =
      if k ∈ ts.map Prod.fst then ts.map Prod.fst else ts.map Prod.fst ++ [k] := by
  induction ts with
  | nil => simp [dictAdd]
  | cons p rest ih =>
    obtain ⟨k', v⟩ := p
    by_cases hk : k' = k
    · subst hk
      simp [dictAdd]
    · rw [dictAdd, if_neg hk]
      have hkk : ¬k = k' := fun h => hk h.symm
      by_cases hm : k ∈ rest.map Prod.fst
      · have hcond : k ∈ ((k', v) :: rest).map Prod.fst := by simp [hm]
        rw [if_pos hcond]
        simp [ih, hm]
      · have hcond : k ∉ ((k', v) :: rest).map Prod.fst := by simp [hkk, hm]
        rw [if_neg hcond]
        simp [ih, hm]

theorem nodup_dictAdd {ts : List (List Char × Int)} (k : List Char) (d : Int)
    (h : (ts.map Prod.fst).Nodup) : ((dictAdd ts k d).map Prod.fst).Nodup := by
  rw [map_fst_dictAdd]
  by_cases hm : k ∈ ts.map Prod.fst
  · rw [if_pos hm]
    exact h
  · rw [if_neg hm]
    refine h.append (List.nodup_singleton k) ?_
    intro x hx hx2
    rw [List.mem_singleton] at hx2
    subst hx2
    exact hm hx

theorem pos_dictAdd {ts : List (List Char × Int)} {k : List Char} {d : Int}
    (hts : ∀ q ∈ ts, 0 < q.2) (hd : 0 < d) :
    ∀ q ∈ dictAdd ts k d, 0 < q.2 := by
  induction ts with
  | nil =>
    intro q hq
    simp only [dictAdd, List.mem_singleton] at hq
    subst hq
    exact hd
  | cons p rest ih =>
    obtain ⟨k', v⟩ := p
    intro q hq
    by_cases hk : k' = k
    · subst hk
      rw [dictAdd, if_pos rfl] at hq
      rcases List.mem_cons.mp hq with h | h
      · subst h
        have := hts (k', v) (List.mem_cons_self _ _)
        simp only at this ⊢
        omega
      · exact hts q (List.mem_cons_of_mem _ h)
    · rw [dictAdd, if_neg hk] at hq
      rcases List.mem_cons.mp hq with h | h
      · subst h
        exact hts (k', v) (List.mem_cons_self _ _)
      · exact ih (fun q hq => hts q (List.mem_cons_of_mem _ hq)) q h

theorem dval_of_mem {ts : List (List Char × Int)} {p : List Char × Int}
    (hnd : (ts.map Prod.fst).Nodup) (hp : p ∈ ts) : dval ts p.1 = p.2 := by
  induction ts with
  | nil => cases hp
  | cons q rest ih =>
    obtain ⟨k, v⟩ := q
    rcases List.mem_cons.mp hp with h | h
    · subst h
      simp [dval]
    · have hk : k ≠ p.1 := by
        intro hkp
        have : p.1 ∈ rest.map Prod.fst := List.mem_map_of_mem Prod.fst h
        rw [List.map_cons, List.nodup_cons] at hnd
        exact hnd.1 (hkp ▸ this)
      rw [dval, if_neg hk]
      exact ih (by rw [List.map_cons, List.nodup_cons] at hnd; exact hnd.2) h

/-- The synthetic tag `"(untagged)"` used when a label carries no `#` tag. -/
def untagged : List Char := ['(', 'u', 'n', 't', 'a', 'g', 'g', 'e', 'd', ')']

/-- `entry.tags() or ["(untagged)"]` from `tui.TerminalUI.top_tasks_for_range`. -/
def effTags (e : Entry) : List (List Char) :=
  if e.tags = [] then [untagged] else e.tags

/-- The `for tag in tags: totals[tag] = totals.get(tag, 0) + duration` loop. -/
def tallyTags (totals : List (List Char × Int)) (tags : List (List Char))
    (d : Int) : List (List Char × Int) :=
  tags.foldl (fun t tag => dictAdd t tag d) totals

/-- One iteration of the entry loop of `tui.TerminalUI.top_tasks_for_range`:
skip the entry when its clipped duration is not positive, otherwise add the
full clipped duration to each of its tags. -/
def tallyEntry (ws we now : Int) (totals : List (List Char × Int))
    (e : Entry) : List (List Char × Int) :=
  let d := clamp_duration e ws we now
  if d ≤ 0 then totals else tallyTags totals (effTags e) d

/-- Descending-by-duration ordering on `(tag, duration)` pairs.  Python's
`sorted(..., key=lambda item: item[1], reverse=True)` is a stable descending
sort, which `List.insertionSort` with this relation reproduces exactly
(equal durations keep their first-seen insertion order). -/
def tagGE (a b : List Char × Int) : Prop := b.2 ≤ a.2

instance : DecidableRel tagGE := fun a b => Int.decLe b.2 a.2

instance : IsTotal (List Char × Int) tagGE := ⟨fun a b => le_total b.2 a.2⟩

instance : IsTrans (List Char × Int) tagGE := ⟨fun _ _ _ h1 h2 => le_trans h2 h1⟩

/-- `tui.TerminalUI.top_tasks_for_range` (the source's default `limit` is 6):
accumulate per-tag totals over all entries, sort descending by duration
(stable), truncate to `limit`. -/
def top_tasks_for_range (entries : List Entry) (ws we now : Int)
    (limit : Nat) : List (List Char × Int) :=
  (List.insertionSort tagGE (entries.foldl (tallyEntry ws we now) [])).take limit

/-- Reference value: what one entry contributes to tag `t` (its full clipped
duration once per occurrence of `t` among its tags, nothing when the clipped
duration is not positive). -/
def tagContrib (ws we now : Int) (t : List Char) (e : Entry) : Int :=
  let d := clamp_duration e ws we now
  if d ≤ 0 then 0 else ((effTags e).count t : Int) * d

/-- Reference value: total duration attributed to tag `t` over all entries. -/
def tagTotal (entries : List Entry) (ws we now : Int) (t : List Char) : Int :=
  (entries.map (tagContrib ws we now t)).sum

theorem dval_tallyTags (tags : List (List Char)) (d : Int)
    (ts : List (List Char × Int)) (t : List Char) :
    dval (tallyTags ts tags d) t = dval ts t + (tags.count t : Int) * d := by
  induction tags generalizing ts with
  | nil => simp [tallyTags]
  | cons tag tags ih =>
    rw [tallyTags, List.foldl_cons]
    have hih := ih (dictAdd ts tag d)
    rw [tallyTags] at hih
    rw [hih, dval_dictAdd, List.count_cons]
    by_cases ht : tag = t
    · simp only [ht, beq_self_eq_true, if_pos, ite_true]
      push_cast
      ring
    · have hbe : (tag == t) = false := beq_eq_false_iff_ne.mpr ht
      simp only [hbe, ite_false, ht]
      push_cast
      ring

theorem nodup_tallyTags (tags : List (List Char)) (d : Int)
    {ts : List (List Char × Int)} (h : (ts.map Prod.fst).Nodup) :
    ((tallyTags ts tags d).map Prod.fst).Nodup := by
  induction tags generalizing ts with
  | nil => exact h
  | cons tag tags ih =>
    rw [tallyTags, List.foldl_cons]
    exact ih (nodup_dictAdd tag d h)

theorem pos_tallyTags (tags : List (List Char)) {d : Int}
    {ts : List (List Char × Int)} (hts : ∀ q ∈ ts, 0 < q.2) (hd : 0 < d) :
    ∀ q ∈ tallyTags ts tags d, 0 < q.2 := by
  induction tags generalizing ts with
  | nil => exact hts
  | cons tag tags ih =>
    rw [tallyTags, List.foldl_cons]
    exact ih (pos_dictAdd hts hd)

theorem dval_foldl_tallyEntry (ws we now : Int) (entries : List Entry)
    (ts : List (List Char × Int)) (t : List Char) :
    dval (entries.foldl (tallyEntry ws we now) ts) t =
      dval ts t + tagTotal entries ws we now t := by
  induction entries generalizing ts with
  | nil => simp [tagTotal]
  | cons e entries ih =>
    rw [List.foldl_cons, ih]
    have hstep : dval (tallyEntry ws we now ts e) t =
        dval ts t + tagContrib ws we now t e := by
      rw [tallyEntry, tagContrib]
      by_cases hd : clamp_duration e ws we now ≤ 0
      · simp [hd]
      · rw [if_neg hd, if_neg hd, dval_tallyTags]
    rw [hstep, tagTotal, tagTotal, List.map_cons, List.sum_cons]
    ring

theorem nodup_foldl_tallyEntry (ws we now : Int) (entries : List Entry)
    {ts : List (List Char × Int)} (h : (ts.map Prod.fst).Nodup) :
    (((entries.foldl (tallyEntry ws we now) ts)).map Prod.fst).Nodup := by
  induction entries generalizing ts with
  | nil => exact h
  | cons e entries ih =>
    rw [List.foldl_cons]
    refine ih ?_
    rw [tallyEntry]
    by_cases hd : clamp_duration e ws we now ≤ 0
    · simpa [hd] using h
    · rw [if_neg hd]
      exact nodup_tallyTags _ _ h

theorem pos_foldl_tallyEntry (ws we now : Int) (entries : List Entry)
    {ts : List (List Char × Int)} (h : ∀ q ∈ ts, 0 < q.2) :
    ∀ q ∈ entries.foldl (tallyEntry ws we now) ts, 0 < q.2 := by
  induction entries generalizing ts with
  | nil => exact h
  | cons e entries ih =>
    rw [List.foldl_cons]
    refine ih ?_
    rw [tallyEntry]
    by_cases hd : clamp_duration e ws we now ≤ 0
    · simpa [hd] using h
    · rw [if_neg hd]
      exact pos_tallyTags _ h (by omega)

/-- Claim C3: the ranked tag aggregation attributes each interval's full
clipped duration to every one of its tags (intervals with non-positive
clipped duration contribute nothing), sorts descending by accumulated
duration with the deterministic first-seen stable tie-break, truncates to
`limit`; and on the concrete scenario of two closed intervals 09:00–10:00 and
10:00–11:30 both labeled `#a #b` it reports `a -> 02:30` and `b -> 02:30`
(9000 seconds each, double counting by design). -/
theorem C3_top_tasks_spec (entries : List Entry) (ws we now : Int) (limit : Nat) :
    (∀ p ∈ top_tasks_for_range entries ws we now limit,
        0 < p.2 ∧ p.2 = tagTotal entries ws we now p.1)
    ∧ List.Sorted tagGE (top_tasks_for_range entries ws we now limit)
    ∧ (top_tasks_for_range entries ws we now limit).length ≤ limit
    ∧ top_tasks_for_range
        [⟨32400, some 36000, ['#', 'a', ' ', '#', 'b']⟩,
         ⟨36000, some 41400, ['#', 'a', ' ', '#', 'b']⟩] 0 604800 41400 6
        = [(['a'], 9000), (['b'], 9000)] := by
  refine ⟨?_, ?_, ?_, by decide⟩
  · intro p hp
    have hmem : p ∈ entries.foldl (tallyEntry ws we now) [] := by
      have h1 : p ∈ List.insertionSort tagGE (entries.foldl (tallyEntry ws we now) []) :=
        List.take_subset _ _ hp
      exact (List.perm_insertionSort tagGE _).subset h1
    have hnd : (((entries.foldl (tallyEntry ws we now) [])).map Prod.fst).Nodup :=
      nodup_foldl_tallyEntry ws we now entries (by simp)
    have hpos : 0 < p.2 :=
      pos_foldl_tallyEntry ws we now entries (by simp) p hmem
    refine ⟨hpos, ?_⟩
    have hd := dval_of_mem hnd hmem
    have hf := dval_foldl_tallyEntry ws we now entries [] p.1
    rw [hd] at hf
    simpa [dval] using hf
  · exact (List.sorted_insertionSort tagGE _).sublist (List.take_sublist _ _)
  · rw [top_tasks_for_range]
    exact le_trans (le_of_eq (List.length_take _ _)) (min_le_left _ _)

/-- A timezone: the UTC offset (seconds east of UTC) in effect at each UTC
instant.  `datetime.astimezone()` with no argument yields a fixed-offset
`timezone` instance carrying `offsetAt now` — the offset in effect at the
converted instant. -/
structure Tz where
  offsetAt : Int → Int

/-- `now.astimezone().date()` as a day index (days since the epoch, which
falls on a Thursday): local wall-clock seconds are `now + offset`, and Python
`//` is floor division, as is `Int` division by a positive literal. -/
def localDate (tz : Tz) (now : Int) : Int :=
  (now + tz.offsetAt now) / 86400

/-- `date.weekday()` for a day index: Monday = 0; epoch day 0 is a Thursday
(weekday 3). -/
def weekdayOf (day : Int) : Int :=
  (day + 3) % 7

/-- `tui.TerminalUI.day_window`: `datetime.combine(today, time.min,
tzinfo=tzinfo)` builds local midnight with the fixed offset taken from `now`
(`tzinfo = now.astimezone().tzinfo`), and `.astimezone(timezone.utc)`
subtracts that same fixed offset. -/
def day_window (tz : Tz) (now : Int) : Int × Int :=
  let o := tz.offsetAt now
  let today := (now + o) / 86400
  (today * 86400 - o, (today + 1) * 86400 - o)

/-- `tui.TerminalUI.week_window`: seven days from the most recent Monday,
boundaries converted with the same fixed offset taken from `now`. -/
def week_window (tz : Tz) (now : Int) : Int × Int :=
  let o := tz.offsetAt now
  let today := (now + o) / 86400
  let week_start := today - weekdayOf today
  (week_start * 86400 - o, (week_start + 7) * 86400 - o)

/-- A timezone with one DST-style transition: offset 3600 before UTC instant
90000, offset 7200 from then on. -/
def dstTz : Tz :=
  ⟨fun t => if t < 90000 then 3600 else 7200⟩

/-- Counterexample to claim C6 as stated: under `dstTz` at `now = 100000` the
code's day-window start is 79200, but the instant whose local wall time is
the local midnight 86400 of now's own local date (day 1) is 82800 — the code
used the offset in effect at `now` (7200), not the offset valid at the
window's own local date (3600), so the boundary is wrong across the DST
transition. -/
theorem C6_counterexample :
    ((day_window dstTz 100000).1 = 79200
      ∧ (day_window dstTz 100000).1 + dstTz.offsetAt (day_window dstTz 100000).1 ≠ 86400)
    ∧ (82800 + dstTz.offsetAt 82800 = 86400)
    ∧ localDate dstTz 100000 = 1 := by
  decide

/-- Claim C6, amended: both windows convert their boundaries with the single
fixed offset in effect at `now` (not the offset valid at the boundary's own
local date).  Consequently the day window always spans exactly 86400 seconds
and contains `now`, the week window spans exactly 604800 seconds, contains
`now` and starts on a Monday-indexed day — and a boundary is the true local
midnight of its local date exactly when the offset at that boundary instant
happens to equal the offset at `now` (i.e. when no DST transition
intervenes); across a transition the boundaries are shifted by the offset
difference. -/
theorem C6_windows_spec (tz : Tz) (now : Int) :
    ((day_window tz now).2 - (day_window tz now).1 = 86400)
    ∧ ((day_window tz now).1 ≤ now ∧ now < (day_window tz now).2)
    ∧ (tz.offsetAt (day_window tz now).1 = tz.offsetAt now →
        (day_window tz now).1 + tz.offsetAt (day_window tz now).1
          = localDate tz now * 86400)
    ∧ ((week_window tz now).2 - (week_window tz now).1 = 604800)
    ∧ ((week_window tz now).1 ≤ now ∧ now < (week_window tz now).2)
    ∧ weekdayOf (localDate tz now - weekdayOf (localDate tz now)) = 0
    ∧ (tz.offsetAt (week_window tz now).1 = tz.offsetAt now →
        (week_window tz now).1 + tz.offsetAt (week_window tz now).1
          = (localDate tz now - weekdayOf (localDate tz now)) * 86400) := by
  simp only [day_window, week_window, localDate, weekdayOf]
  refine ⟨by omega, ⟨by omega, by omega⟩, fun h => by omega,
    by omega, ⟨by omega, by omega⟩, by omega, fun h => by omega⟩

/-- Witness for C6 (amended) at a concrete timezone and instant. -/
theorem C6_windows_spec_witness :
    ((day_window dstTz 100000).2 - (day_window dstTz 100000).1 = 86400)
    ∧ ((day_window dstTz 100000).1 ≤ 100000 ∧ 100000 < (day_window dstTz 100000).2)
    ∧ (dstTz.offsetAt (day_window dstTz 100000).1 = dstTz.offsetAt 100000 →
        (day_window dstTz 100000).1 + dstTz.offsetAt (day_window dstTz 100000).1
          = localDate dstTz 100000 * 86400)
    ∧ ((week_window dstTz 100000).2 - (week_window dstTz 100000).1 = 604800)
    ∧ ((week_window dstTz 100000).1 ≤ 100000 ∧ 100000 < (week_window dstTz 100000).2)
    ∧ weekdayOf (localDate dstTz 100000 - weekdayOf (localDate dstTz 100000)) = 0
    ∧ (dstTz.offsetAt (week_window dstTz 100000).1 = dstTz.offsetAt 100000 →
        (week_window dstTz 100000).1 + dstTz.offsetAt (week_window dstTz 100000).1
          = (localDate dstTz 100000 - weekdayOf (localDate dstTz 100000)) * 86400) :=
  C6_windows_spec dstTz 100000

/-- A row of the day/week summary listing: local start, local end (clipped to
the window), clipped duration, label. -/
structure Row where
  loc_start : Int
  loc_end : Int
  dur : Int
  label : List Char
  deriving DecidableEq, Repr

/-- Descending-by-local-start ordering on rows; Python's
`rows.sort(key=lambda row: row[0], reverse=True)` is this stable descending
sort. -/
def rowGE (a b : Row) : Prop := b.loc_start ≤ a.loc_start

instance : DecidableRel rowGE := fun a b => Int.decLe b.loc_start a.loc_start

instance : IsTotal Row rowGE := ⟨fun a b => le_total b.loc_start a.loc_start⟩

instance : IsTrans Row rowGE := ⟨fun _ _ _ h1 h2 => le_trans h2 h1⟩

/-- `tui.TerminalUI.summarize_entries`: one row per closed entry with positive
clipped duration (open entries are skipped by the `entry.end is None`
check), local times computed with the fixed offset in effect at `now`, sorted
by local start descending. -/
def summarize_entries (tz : Tz) (entries : List Entry) (ws we now : Int) :
    List Row :=
  List.insertionSort rowGE (entries.filterMap fun e =>
    match e.stop with
    | none => none
    | some en =>
      if clamp_duration e ws we now ≤ 0 then none
      else some ⟨max e.start ws + tz.offsetAt now, min en we + tz.offsetAt now,
        clamp_duration e ws we now, e.text⟩)

/-- Reference predicate: the entries that produce a row (closed, positive
clipped duration). -/
def rowKeep (ws we now : Int) (e : Entry) : Bool :=
  decide (e.stop ≠ none ∧ 0 < clamp_duration e ws we now)

/-- Reference row for one kept entry. -/
def rowOf (tz : Tz) (ws we now : Int) (e : Entry) : Row :=
  ⟨max e.start ws + tz.offsetAt now, min (e.stop.getD now) we + tz.offsetAt now,
    clamp_duration e ws we now, e.text⟩

/-- A timezone with offset 0 everywhere. -/
def flatTz : Tz := ⟨fun _ => 0⟩

/-- Counterexample to claim C7 as stated: an open interval (started at 0,
still running at `now = 50`) has positive clipped duration 50 in the window
`[0, 100)`, yet the listing contains no row for it — `summarize_entries`
skips every open interval. -/
theorem C7_counterexample :
    0 < clamp_duration ⟨0, none, ['x']⟩ 0 100 50
    ∧ summarize_entries flatTz [⟨0, none, ['x']⟩] 0 100 50 = [] := by
  decide

/-- Claim C7, amended: the listing contains exactly one row (local start,
local end clipped to the window, clipped duration, label) for each *closed*
interval whose clipped duration is positive — intervals with non-positive
clipped duration never appear, and *open* intervals are excluded even when
their clipped duration is positive — sorted by local start in one consistent
direction (descending). -/
theorem C7_summarize_spec (tz : Tz) (entries : List Entry) (ws we now : Int) :
    (summarize_entries tz entries ws we now).Perm
      ((entries.filter (rowKeep ws we now)).map (rowOf tz ws we now))
    ∧ List.Sorted rowGE (summarize_entries tz entries ws we now)
    ∧ (summarize_entries tz entries ws we now).length
        = (entries.filter (rowKeep ws we now)).length := by
  have hpre : (entries.filterMap fun e =>
      match e.stop with
      | none => none
      | some en =>
        if clamp_duration e ws we now ≤ 0 then none
        else some (⟨max e.start ws + tz.offsetAt now, min en we + tz.offsetAt now,
          clamp_duration e ws we now, e.text⟩ : Row)) =
      (entries.filter (rowKeep ws we now)).map (rowOf tz ws we now) := by
    induction entries with
    | nil => rfl
    | cons e entries ih =>
      rw [List.filterMap_cons, List.filter_cons]
      cases hstop : e.stop with
      | none =>
        have hk : rowKeep ws we now e = false := by
          simp [rowKeep, hstop]
        simp [hk, ih]
      | some en =>
        by_cases hd : clamp_duration e ws we now ≤ 0
        · have hk : rowKeep ws we now e = false := by
            simp only [rowKeep, decide_eq_false_iff_not]
            push_neg
            intro
            omega
          simp [hk, hd, ih]
        · have hk : rowKeep ws we now e = true := by
            simp [rowKeep, hstop]
            omega
          simp [hk, hd, ih, rowOf, hstop]
  have hperm : (summarize_entries tz entries ws we now).Perm
      ((entries.filter (rowKeep ws we now)).map (rowOf tz ws we now)) := by
    rw [summarize_entries, hpre]
    exact List.perm_insertionSort rowGE _
  refine ⟨hperm, ?_, ?_⟩
  · rw [summarize_entries]
    exact List.sorted_insertionSort rowGE _
  · rw [hperm.length_eq, List.length_map]

/-- Witness for C7 (amended): no hypotheses, so this instantiates the theorem
at a concrete log with one closed in-window entry and one open entry. -/
theorem C7_summarize_spec_witness :
    (summarize_entries flatTz [⟨10, some 20, ['x']⟩, ⟨30, none, ['y']⟩] 0 100 50).Perm
      (([(⟨10, some 20, ['x']⟩ : Entry), ⟨30, none, ['y']⟩].filter (rowKeep 0 100 50)).map
        (rowOf flatTz 0 100 50))
    ∧ List.Sorted rowGE
        (summarize_entries flatTz [⟨10, some 20, ['x']⟩, ⟨30, none, ['y']⟩] 0 100 50)
    ∧ (summarize_entries flatTz [⟨10, some 20, ['x']⟩, ⟨30, none, ['y']⟩] 0 100 50).length
        = ([(⟨10, some 20, ['x']⟩ : Entry), ⟨30, none, ['y']⟩].filter (rowKeep 0 100 50)).length :=
  C7_summarize_spec flatTz [⟨10, some 20, ['x']⟩, ⟨30, none, ['y']⟩] 0 100 50

/-- The scroll-relevant state of `tui.TerminalUI`: the entry snapshot, the two
panel scroll offsets and which panel owns scroll focus
(`focus_section == "day"`). -/
structure UIState where
  entries : List Entry
  dayOffset : Int
  weekOffset : Int
  focusDay : Bool

/-- `tui.TerminalUI.scroll_active`: move the focused panel's offset by
`delta`, clamped below at 0. -/
def scroll_active (s : UIState) (delta : Int) : UIState :=
  if s.focusDay then { s with dayOffset := max 0 (s.dayOffset + delta) }
  else { s with weekOffset := max 0 (s.weekOffset + delta) }

/-- The Tab handler of `tui.TerminalUI.loop`: toggle the focused panel,
touching no offsets. -/
def switch_focus (s : UIState) : UIState :=
  { s with focusDay := !s.focusDay }

/-- `tui.TerminalUI.reload_entries`: replace the snapshot, touching no
offsets. -/
def reload_entries (s : UIState) (es : List Entry) : UIState :=
  { s with entries := es }

/-- `tui.TerminalUI.draw_day_summary`, restricted to its effect on
`day_offset`: undersized panels (`height < 2`, or no content lines) leave the
offset untouched; otherwise the offset is clamped to
`max 0 (len(summaries) - max_lines)` with `max_lines = max 0 (height - 2)`. -/
def draw_day_summary (tz : Tz) (s : UIState) (ws we now height : Int) : UIState :=
  if height < 2 then s
  else
    let max_lines := max 0 (height - 2)
    if max_lines ≤ 0 then s
    else
      let bound := max 0 (((summarize_entries tz s.entries ws we now).length : Int) - max_lines)
      { s with dayOffset := min s.dayOffset bound }

/-- `tui.TerminalUI.draw_week_summary`, restricted to its effect on
`week_offset` (same clamping as the day panel). -/
def draw_week_summary (tz : Tz) (s : UIState) (ws we now height : Int) : UIState :=
  if height < 2 then s
  else
    let max_lines := max 0 (height - 2)
    if max_lines ≤ 0 then s
    else
      let bound := max 0 (((summarize_entries tz s.entries ws we now).length : Int) - max_lines)
      { s with weekOffset := min s.weekOffset bound }

/-- Both scroll offsets are non-negative. -/
def offsets_ok (s : UIState) : Prop :=
  0 ≤ s.dayOffset ∧ 0 ≤ s.weekOffset

/-- Counterexample to claim C8 as stated: drawing the day panel at
`height = 2` (border only, zero content lines) performs no clamping, so a
stale offset 1 survives a draw although the claimed bound
`max 0 (visible_row_count - viewport_height)` is 0 for an empty log. -/
theorem C8_counterexample :
    (draw_day_summary flatTz ⟨[], 1, 0, true⟩ 0 100 50 2).dayOffset = 1
    ∧ ¬((draw_day_summary flatTz ⟨[], 1, 0, true⟩ 0 100 50 2).dayOffset
        ≤ max 0 (((summarize_entries flatTz [] 0 100 50).length : Int)
            - max 0 (2 - 2))) := by
  decide

/-- Claim C8, amended: each scroll offset is a non-negative integer after
every operation (scroll, focus switch, reload, draw); for each scrollable
panel (day and week), a draw whose panel has at least one content line
(`height ≥ 3`) clamps that panel's offset to at most
`max 0 (visible_row_count - viewport_height)`; offsets already within that
bound are preserved by redraws, and reloads and focus switches never touch
them.  (A draw at `height < 3` renders no content lines and leaves the
offset unclamped.) -/
theorem C8_scroll_state_spec (tz : Tz) (s : UIState) (delta ws we now height : Int)
    (es : List Entry) (hok : offsets_ok s) :
    offsets_ok (scroll_active s delta)
    ∧ offsets_ok (switch_focus s)
    ∧ offsets_ok (reload_entries s es)
    ∧ offsets_ok (draw_day_summary tz s ws we now height)
    ∧ offsets_ok (draw_week_summary tz s ws we now height)
    ∧ (reload_entries s es).dayOffset = s.dayOffset
    ∧ (reload_entries s es).weekOffset = s.weekOffset
    ∧ (switch_focus s).dayOffset = s.dayOffset
    ∧ (switch_focus s).weekOffset = s.weekOffset
    ∧ (3 ≤ height →
        (draw_day_summary tz s ws we now height).dayOffset
          ≤ max 0 (((summarize_entries tz s.entries ws we now).length : Int)
              - max 0 (height - 2)))
    ∧ (s.dayOffset ≤ max 0 (((summarize_entries tz s.entries ws we now).length : Int)
            - max 0 (height - 2)) →
        (draw_day_summary tz s ws we now height).dayOffset = s.dayOffset)
    ∧ (3 ≤ height →
        (draw_week_summary tz s ws we now height).weekOffset
          ≤ max 0 (((summarize_entries tz s.entries ws we now).length : Int)
              - max 0 (height - 2)))
    ∧ (s.weekOffset ≤ max 0 (((summarize_entries tz s.entries ws we now).length : Int)
            - max 0 (height - 2)) →
        (draw_week_summary tz s ws we now height).weekOffset = s.weekOffset) := by
  obtain ⟨hd, hw⟩ := hok
  refine ⟨?_, ⟨hd, hw⟩, ⟨hd, hw⟩, ?_, ?_, rfl, rfl, rfl, rfl, ?_, ?_, ?_, ?_⟩
  · simp only [offsets_ok, scroll_active]
    split_ifs <;> (try dsimp only) <;> constructor <;> omega
  · simp only [offsets_ok, draw_day_summary]
    split_ifs <;> (try dsimp only) <;> constructor <;> omega
  · simp only [offsets_ok, draw_week_summary]
    split_ifs <;> (try dsimp only) <;> constructor <;> omega
  · intro hh
    simp only [draw_day_summary]
    rw [if_neg (by omega), if_neg (by omega)]
    dsimp only
    omega
  · intro hb
    simp only [draw_day_summary]
    split_ifs
    · rfl
    · rfl
    · dsimp only
      omega
  · intro hh
    simp only [draw_week_summary]
    rw [if_neg (by omega), if_neg (by omega)]
    dsimp only
    omega
  · intro hb
    simp only [draw_week_summary]
    split_ifs
    · rfl
    · rfl
    · dsimp only
      omega

/-- Witness for C8 (amended) at a concrete state with both offsets 0. -/
theorem C8_scroll_state_spec_witness :
    offsets_ok (scroll_active ⟨[], 0, 0, true⟩ 1)
    ∧ offsets_ok (switch_focus ⟨[], 0, 0, true⟩)
    ∧ offsets_ok (reload_entries ⟨[], 0, 0, true⟩ [])
    ∧ offsets_ok (draw_day_summary flatTz ⟨[], 0, 0, true⟩ 0 100 50 5)
    ∧ offsets_ok (draw_week_summary flatTz ⟨[], 0, 0, true⟩ 0 100 50 5)
    ∧ (reload_entries ⟨[], 0, 0, true⟩ []).dayOffset = (⟨[], 0, 0, true⟩ : UIState).dayOffset
    ∧ (reload_entries ⟨[], 0, 0, true⟩ []).weekOffset = (⟨[], 0, 0, true⟩ : UIState).weekOffset
    ∧ (switch_focus ⟨[], 0, 0, true⟩).dayOffset = (⟨[], 0, 0, true⟩ : UIState).dayOffset
    ∧ (switch_focus ⟨[], 0, 0, true⟩).weekOffset = (⟨[], 0, 0, true⟩ : UIState).weekOffset
    ∧ ((3 : Int) ≤ 5 →
        (draw_day_summary flatTz ⟨[], 0, 0, true⟩ 0 100 50 5).dayOffset
          ≤ max 0 (((summarize_entries flatTz ([] : List Entry) 0 100 50).length : Int)
              - max 0 (5 - 2)))
    ∧ ((⟨[], 0, 0, true⟩ : UIState).dayOffset
          ≤ max 0 (((summarize_entries flatTz ([] : List Entry) 0 100 50).length : Int)
              - max 0 (5 - 2)) →
        (draw_day_summary flatTz ⟨[], 0, 0, true⟩ 0 100 50 5).dayOffset
          = (⟨[], 0, 0, true⟩ : UIState).dayOffset)
    ∧ ((3 : Int) ≤ 5 →
        (draw_week_summary flatTz ⟨[], 0, 0, true⟩ 0 100 50 5).weekOffset
          ≤ max 0 (((summarize_entries flatTz ([] : List Entry) 0 100 50).length : Int)
              - max 0 (5 - 2)))
    ∧ ((⟨[], 0, 0, true⟩ : UIState).weekOffset
          ≤ max 0 (((summarize_entries flatTz ([] : List Entry) 0 100 50).length : Int)
              - max 0 (5 - 2)) →
        (draw_week_summary flatTz ⟨[], 0, 0, true⟩ 0 100 50 5).weekOffset
          = (⟨[], 0, 0, true⟩ : UIState).weekOffset) :=
  C8_scroll_state_spec flatTz ⟨[], 0, 0, true⟩ 1 0 100 50 5 [] ⟨by decide, by decide⟩

/-- The addressable curses screen: its dimensions and the cells painted so
far (attributes and glyphs are irrelevant to the safety claim). -/
structure Screen where
  rows : Int
  cols : Int
  painted : List (Int × Int)

/-- One curses cell write (`addch`): writing outside the addressable screen
raises `curses.error`, modeled as `Except.error` carrying the partially
painted screen. -/
def addch (scr : Screen) (y x : Int) : Except Screen Screen :=
  if 0 ≤ y ∧ y < scr.rows ∧ 0 ≤ x ∧ x < scr.cols then
    Except.ok { scr with painted := (y, x) :: scr.painted }
  else Except.error scr

/-- Python `range(a, b)` over integers (empty when `b ≤ a`). -/
def intRange (a b : Int) : List Int :=
  (List.range (b - a).toNat).map fun i => a + (i : Int)

/-- A sequence of `addch` writes; the first failure aborts the rest. -/
def addchSeq (scr : Screen) (cells : List (Int × Int)) : Except Screen Screen :=
  cells.foldlM (fun s c => addch s c.1 c.2) scr

/-- A curses `addstr(y, x, text)` writing `n` characters, modeled as the `n`
cell writes starting at `(y, x)`. -/
def addstrRaw (scr : Screen) (y x : Int) (n : Nat) : Except Screen Screen :=
  addchSeq scr ((intRange x (x + (n : Int))).map fun c => (y, c))

/-- The `try:` body of `tui.TerminalUI.draw_box`: the four corners, the
horizontal and vertical edges, and the title (written only when
`len(title_text) < width - 2`, where `title_text` is the title padded with
one space on each side). -/
def draw_box_body (scr : Screen) (y x height width : Int) (titleLen : Nat) :
    Except Screen Screen := do
  let right := x + width - 1
  let bottom := y + height - 1
  let s ← addch scr y x
  let s ← addchSeq s ((intRange (x + 1) right).map fun c => (y, c))
  let s ← addch s y right
  let s ← (intRange (y + 1) bottom).foldlM
    (fun s r => do
      let s ← addch s r x
      addch s r right) s
  let s ← addch s bottom x
  let s ← addchSeq s ((intRange (x + 1) right).map fun c => (bottom, c))
  let s ← addch s bottom right
  if (titleLen : Int) + 2 < width - 2 then addstrRaw s y (x + 2) (titleLen + 2)
  else pure s

/-- `tui.TerminalUI.draw_box` with its `except curses.error: pass`:
rectangles with `height < 2` or `width < 2` draw nothing, and a failing write
stops drawing for the element but is swallowed, so the result is always
`Except.ok`. -/
def draw_box (scr : Screen) (y x height width : Int) (titleLen : Nat) :
    Except Screen Screen :=
  if height < 2 ∨ width < 2 then Except.ok scr
  else
    match draw_box_body scr y x height width titleLen with
    | Except.ok s => Except.ok s
    | Except.error s => Except.ok s

/-- `tui.TerminalUI.addstr` (the guarded wrapper): skip rows outside the
screen, cap the width to the remaining columns (writing `capped_width`
characters of the padded/truncated text), and swallow `curses.error`. -/
def ui_addstr (scr : Screen) (y x width : Int) : Except Screen Screen :=
  if y < 0 ∨ scr.rows ≤ y then Except.ok scr
  else
    let capped_width := min width (scr.cols - x)
    if capped_width ≤ 0 then Except.ok scr
    else
      match addstrRaw scr y x capped_width.toNat with
      | Except.ok s => Except.ok s
      | Except.error s => Except.ok s

/-- Claim C9: for every target rectangle with `height < 2` or `width < 2` the
panel renderer draws nothing and raises nothing, and for every rectangle and
every screen any out-of-bounds write inside `draw_box` or `addstr` is caught
and swallowed — both always return `Except.ok`, so a draw cycle never raises
out of the renderer. -/
theorem C9_renderer_safe (scr : Screen) (y x height width : Int) (titleLen : Nat) :
    (height < 2 ∨ width < 2 →
      draw_box scr y x height width titleLen = Except.ok scr)
    ∧ (∃ s, draw_box scr y x height width titleLen = Except.ok s)
    ∧ (∃ s, ui_addstr scr y x width = Except.ok s) := by
  refine ⟨fun h => by rw [draw_box, if_pos h], ?_, ?_⟩
  · rw [draw_box]
    split_ifs
    · exact ⟨scr, rfl⟩
    · cases draw_box_body scr y x height width titleLen with
      | ok s => exact ⟨s, rfl⟩
      | error s => exact ⟨s, rfl⟩
  · simp only [ui_addstr]
    split_ifs
    · exact ⟨scr, rfl⟩
    · exact ⟨scr, rfl⟩
    · cases addstrRaw scr y x (min width (scr.cols - x)).toNat with
      | ok s => exact ⟨s, rfl⟩
      | error s => exact ⟨s, rfl⟩

/-- Witness for C9 on a concrete 5×5 screen and a degenerate 1×1 rectangle. -/
theorem C9_renderer_safe_witness :
    ((1 : Int) < 2 ∨ (1 : Int) < 2 →
      draw_box ⟨5, 5, []⟩ 0 0 1 1 0 = Except.ok ⟨5, 5, []⟩)
    ∧ (∃ s, draw_box ⟨5, 5, []⟩ 0 0 1 1 0 = Except.ok s)
    ∧ (∃ s, ui_addstr ⟨5, 5, []⟩ 0 0 1 = Except.ok s) :=
  C9_renderer_safe ⟨5, 5, []⟩ 0 0 1 1 0

/-- Witness for C3: the tag `a` row of the concrete two-interval scenario,
obtained by applying the theorem's membership clause at that row. -/
theorem C3_top_tasks_spec_witness :
    0 < ((['a'], 9000) : List Char × Int).2
    ∧ ((['a'], 9000) : List Char × Int).2 =
      tagTotal [⟨32400, some 36000, ['#', 'a', ' ', '#', 'b']⟩,
        ⟨36000, some 41400, ['#', 'a', ' ', '#', 'b']⟩] 0 604800 41400 ['a'] :=
  (C3_top_tasks_spec [⟨32400, some 36000, ['#', 'a', ' ', '#', 'b']⟩,
    ⟨36000, some 41400, ['#', 'a', ' ', '#', 'b']⟩] 0 604800 41400 6).1
    (['a'], 9000) (by decide)

/-- A Python `datetime` as stored by `storage.py`: `wall` is the wall-clock
(civil) fields linearized to seconds, `off` the `tzinfo` UTC offset in
minutes (`none` = naive).  An aware value denotes the instant
`wall - 60 * off`. -/
structure DT where
  wall : Int
  off : Option Int
  deriving DecidableEq, Repr

/-- The absolute instant an (aware) datetime denotes; a naive value is read
as UTC, matching `storage._ensure_aware`. -/
def DT.instant (d : DT) : Int :=
  d.wall - 60 * d.off.getD 0

/-- `storage._ensure_aware`: `value.replace(tzinfo=timezone.utc)` on a naive
value keeps the fields and attaches offset 0. -/
def ensure_aware (d : DT) : DT :=
  match d.off with
  | none => ⟨d.wall, some 0⟩
  | some _ => d

/-- `datetime.astimezone(timezone.utc)`: same instant, offset 0, fields
shifted by the old offset. -/
def astimezone_utc (d : DT) : DT :=
  ⟨d.wall - 60 * d.off.getD 0, some 0⟩

/-- `storage.Entry` at the datetime level (the aggregation code above uses
the instant-level `Entry`). -/
structure SEntry where
  start : DT
  stop : Option DT
  text : List Char
  deriving DecidableEq, Repr

/-- The decimal digit character for `n < 10`. -/
def digitChar (n : Nat) : Char :=
  Char.ofNat (48 + n)

/-- Decimal digits of `n`, least significant first. -/
def natDigitsRev (n : Nat) : List Char :=
  if h : n < 10 then [digitChar n]
  else digitChar (n % 10) :: natDigitsRev (n / 10)
decreasing_by exact Nat.div_lt_self (by omega) (by omega)

/-- Decimal notation of `n`, most significant first. -/
def natEnc (n : Nat) : List Char :=
  (natDigitsRev n).reverse

/-- Value of a decimal digit character. -/
def digitVal? (c : Char) : Option Nat :=
  if 48 ≤ c.toNat ∧ c.toNat ≤ 57 then some (c.toNat - 48) else none

/-- Decode a digit list, least significant first ([] is invalid). -/
def decDigitsRev : List Char → Option Nat
  | [] => none
  | [c] => digitVal? c
  | c :: rest => do
    let v ← digitVal? c
    let r ← decDigitsRev rest
    pure (v + 10 * r)

/-- Decode decimal notation, most significant first. -/
def natDec (s : List Char) : Option Nat :=
  decDigitsRev s.reverse

/-- Signed decimal notation of an integer. -/
def intEnc (i : Int) : List Char :=
  if i < 0 then '-' :: natEnc (-i).toNat else natEnc i.toNat

/-- Decode signed decimal notation. -/
def intDec (s : List Char) : Option Int :=
  match s with
  | [] => none
  | c :: rest =>
    if c = '-' then (natDec rest).map fun n => -(n : Int)
    else (natDec (c :: rest)).map fun n => (n : Int)

theorem digitChar_toNat {k : Nat} (h : k < 10) : (digitChar k).toNat = 48 + k := by
  interval_cases k <;> decide

theorem digitVal?_digitChar {k : Nat} (h : k < 10) :
    digitVal? (digitChar k) = some k := by
  interval_cases k <;> decide

theorem natDigitsRev_ne_nil (n : Nat) : natDigitsRev n ≠ [] := by
  rw [natDigitsRev]
  split_ifs <;> simp

theorem mem_natDigitsRev_digit {n : Nat} {c : Char} (h : c ∈ natDigitsRev n) :
    48 ≤ c.toNat ∧ c.toNat ≤ 57 := by
  induction n using Nat.strong_induction_on with
  | _ n ih =>
    rw [natDigitsRev] at h
    by_cases hn : n < 10
    · rw [dif_pos hn] at h
      rw [List.mem_singleton] at h
      subst h
      rw [digitChar_toNat hn]
      omega
    · rw [dif_neg hn] at h
      rcases List.mem_cons.mp h with hc | hc
      · subst hc
        rw [digitChar_toNat (Nat.mod_lt n (by omega))]
        have := Nat.mod_lt n (show 0 < 10 by omega)
        omega
      · exact ih (n / 10) (Nat.div_lt_self (by omega) (by omega)) hc

theorem decDigitsRev_natDigitsRev (n : Nat) :
    decDigitsRev (natDigitsRev n) = some n := by
  induction n using Nat.strong_induction_on with
  | _ n ih =>
    rw [natDigitsRev]
    by_cases hn : n < 10
    · rw [dif_pos hn]
      rw [decDigitsRev, digitVal?_digitChar hn]
    · rw [dif_neg hn]
      cases hrec : natDigitsRev (n / 10) with
      | nil => exact absurd hrec (natDigitsRev_ne_nil _)
      | cons c rest =>
        have hih : decDigitsRev (c :: rest) = some (n / 10) := by
          rw [← hrec]
          exact ih (n / 10) (Nat.div_lt_self (by omega) (by omega))
        rw [decDigitsRev, digitVal?_digitChar (Nat.mod_lt n (by omega)), hih]
        have hmod : n % 10 + 10 * (n / 10) = n := by omega
        simp [hmod]
        simp

theorem natDec_natEnc (n : Nat) : natDec (natEnc n) = some n := by
  rw [natDec, natEnc, List.reverse_reverse]
  exact decDigitsRev_natDigitsRev n

theorem mem_natEnc_digit {n : Nat} {c : Char} (h : c ∈ natEnc n) :
    48 ≤ c.toNat ∧ c.toNat ≤ 57 :=
  mem_natDigitsRev_digit (List.mem_reverse.mp h)

theorem natEnc_ne_nil (n : Nat) : natEnc n ≠ [] := by
  rw [natEnc]
  intro h
  exact natDigitsRev_ne_nil n (by simpa using h)

theorem intDec_intEnc (i : Int) : intDec (intEnc i) = some i := by
  rw [intEnc]
  by_cases hi : i < 0
  · rw [if_pos hi, intDec, if_pos rfl, natDec_natEnc]
    simp
    omega
  · rw [if_neg hi]
    cases henc : natEnc i.toNat with
    | nil => exact absurd henc (natEnc_ne_nil _)
    | cons c rest =>
      have hc : c ≠ '-' := by
        have hd : 48 ≤ c.toNat ∧ c.toNat ≤ 57 :=
          mem_natEnc_digit (henc ▸ List.mem_cons_self c rest)
        intro h
        subst h
        simp at hd
      rw [intDec, if_neg hc, ← henc, natDec_natEnc]
      simp
      omega

/-- Python `raw.split(sep, 1)` restricted to what `parse_entry` needs: split
at the first occurrence of `sep`, `none` when `sep` does not occur (the
`"|" not in raw` check). -/
def splitFirst (sep : Char) : List Char → Option (List Char × List Char)
  | [] => none
  | x :: xs =>
    if x = sep then some ([], xs)
    else (splitFirst sep xs).map fun p => (x :: p.1, p.2)

theorem splitFirst_append {sep : Char} (A B : List Char)
    (hA : ∀ a ∈ A, a ≠ sep) : splitFirst sep (A ++ sep :: B) = some (A, B) := by
  induction A with
  | nil => simp [splitFirst]
  | cons a A ih =>
    have ha : a ≠ sep := hA a (List.mem_cons_self a A)
    rw [List.cons_append, splitFirst, if_neg ha,
      ih fun x hx => hA x (List.mem_cons_of_mem a hx)]
    rfl

theorem head?_mem {α : Type} {l : List α} {a : α} (h : l.head? = some a) :
    a ∈ l := by
  cases l with
  | nil => cases h
  | cons b l =>
    rw [List.head?_cons, Option.some.injEq] at h
    subst h
    exact List.mem_cons_self _ _

theorem getLast?_mem {α : Type} {l : List α} {a : α} (h : l.getLast? = some a) :
    a ∈ l := by
  rw [← List.head?_reverse] at h
  exact List.mem_reverse.mp (head?_mem h)

theorem dropWhile_eq_self_of_head {p : Char → Bool} {l : List Char}
    (h : ∀ c, l.head? = some c → p c = false) : l.dropWhile p = l := by
  cases l with
  | nil => rfl
  | cons a l =>
    rw [List.dropWhile_cons, h a rfl]
    simp

theorem pyStrip_eq_self {l : List Char}
    (h1 : ∀ c, l.head? = some c → c.isWhitespace = false)
    (h2 : ∀ c, l.getLast? = some c → c.isWhitespace = false) :
    pyStrip l = l := by
  have hrev : ∀ c, l.reverse.head? = some c → c.isWhitespace = false := by
    intro c hc
    exact h2 c (by rwa [List.head?_reverse] at hc)
  rw [pyStrip, dropWhile_eq_self_of_head h1, dropWhile_eq_self_of_head hrev,
    List.reverse_reverse]

theorem pySplitAux_word (E : List Char) : ∀ acc : List Char,
    (∀ c ∈ E, c.isWhitespace = false) → (E ≠ [] ∨ acc ≠ []) →
    pySplitAux E acc = [acc.reverse ++ E] := by
  induction E with
  | nil =>
    intro acc h hne
    rw [pySplitAux, if_neg (hne.resolve_left fun h => absurd rfl h)]
    simp
  | cons c E ih =>
    intro acc h hne
    rw [pySplitAux, h c (List.mem_cons_self c E)]
    simp only [Bool.false_eq_true, if_neg, ite_false]
    rw [ih (c :: acc) (fun d hd => h d (List.mem_cons_of_mem c hd)) (Or.inr (by simp))]
    simp

theorem pySplitAux_sep (S : List Char) (E : List Char) : ∀ acc : List Char,
    (∀ c ∈ S, c.isWhitespace = false) → (∀ c ∈ E, c.isWhitespace = false) →
    E ≠ [] → (S ≠ [] ∨ acc ≠ []) →
    pySplitAux (S ++ ' ' :: E) acc = [acc.reverse ++ S, E] := by
  induction S with
  | nil =>
    intro acc hS hE hEne hne
    have hacc : acc ≠ [] := hne.resolve_left fun h => absurd rfl h
    rw [List.nil_append, pySplitAux]
    have hws : (' ' : Char).isWhitespace = true := by decide
    rw [hws]
    simp only [ite_true, if_pos]
    rw [if_neg hacc, pySplitAux_word E [] hE (Or.inl hEne)]
    simp
  | cons c S ih =>
    intro acc hS hE hEne hne
    rw [List.cons_append, pySplitAux, hS c (List.mem_cons_self c S)]
    simp only [Bool.false_eq_true, if_neg, ite_false]
    rw [ih (c :: acc) (fun d hd => hS d (List.mem_cons_of_mem c hd)) hE hEne
      (Or.inr (by simp))]
    simp

theorem pySplit_sep {S E : List Char}
    (hS : ∀ c ∈ S, c.isWhitespace = false) (hE : ∀ c ∈ E, c.isWhitespace = false)
    (hSne : S ≠ []) (hEne : E ≠ []) :
    pySplit (S ++ ' ' :: E) = [S, E] := by
  rw [pySplit, pySplitAux_sep S E [] hS hE hEne (Or.inl hSne)]
  simp

theorem ne_char_of_toNat {c d : Char} (h : c.toNat ≠ d.toNat) : c ≠ d :=
  fun he => h (congrArg Char.toNat he)

theorem not_ws_of_toNat {c : Char} (h1 : 48 ≤ c.toNat) (h2 : c.toNat ≤ 57) :
    c.isWhitespace = false := by
  have e1 : (' ' : Char).toNat = 32 := by decide
  have e2 : ('\t' : Char).toNat = 9 := by decide
  have e3 : ('\r' : Char).toNat = 13 := by decide
  have e4 : ('\n' : Char).toNat = 10 := by decide
  have n1 : c ≠ ' ' := ne_char_of_toNat (by omega)
  have n2 : c ≠ '\t' := ne_char_of_toNat (by omega)
  have n3 : c ≠ '\r' := ne_char_of_toNat (by omega)
  have n4 : c ≠ '\n' := ne_char_of_toNat (by omega)
  simp [Char.isWhitespace, n1, n2, n3, n4]

theorem mem_intEnc {i : Int} {c : Char} (h : c ∈ intEnc i) :
    c = '-' ∨ (48 ≤ c.toNat ∧ c.toNat ≤ 57) := by
  rw [intEnc] at h
  split_ifs at h
  · rcases List.mem_cons.mp h with h | h
    · exact Or.inl h
    · exact Or.inr (mem_natEnc_digit h)
  · exact Or.inr (mem_natEnc_digit h)

theorem mem_intEnc_tok {i : Int} {c : Char} (h : c ∈ intEnc i) :
    c ≠ '|' ∧ c ≠ '+' ∧ c.isWhitespace = false := by
  have e1 : ('|' : Char).toNat = 124 := by decide
  have e2 : ('+' : Char).toNat = 43 := by decide
  have e3 : ('-' : Char).toNat = 45 := by decide
  rcases mem_intEnc h with h1 | ⟨hd1, hd2⟩
  · subst h1
    exact ⟨by decide, by decide, by decide⟩
  · exact ⟨ne_char_of_toNat (by omega), ne_char_of_toNat (by omega),
      not_ws_of_toNat hd1 hd2⟩

theorem intEnc_ne_nil (i : Int) : intEnc i ≠ [] := by
  rw [intEnc]
  split_ifs
  · simp
  · exact natEnc_ne_nil _

/-- Modelled from the spec: `datetime.isoformat` on an aware datetime, whose
implementation lives in the Python standard library, not in this repository.
It is modeled as an injective rendering of the wall-clock fields and the
offset, inverted by `fromisoformat` (the documented stdlib contract).  Like a
real ISO 8601 aware timestamp it is nonempty, contains no whitespace and no
`'|'`, and never equals the open sentinel `"-"`. -/
def isoformat (d : DT) : List Char :=
  intEnc d.wall ++ '+' :: intEnc (d.off.getD 0)

/-- Modelled from the spec: `datetime.fromisoformat`, the stdlib inverse of
`isoformat` (a parse failure, which `parse_entry` lets propagate, is
`none`). -/
def fromisoformat (s : List Char) : Option DT :=
  match splitFirst '+' s with
  | none => none
  | some (w, o) => do
    let wall ← intDec w
    let off ← intDec o
    pure ⟨wall, some off⟩

theorem mem_isoformat_tok {d : DT} {c : Char} (h : c ∈ isoformat d) :
    c ≠ '|' ∧ c.isWhitespace = false := by
  rw [isoformat, List.mem_append, List.mem_cons] at h
  rcases h with h | h | h
  · exact ⟨(mem_intEnc_tok h).1, (mem_intEnc_tok h).2.2⟩
  · subst h
    exact ⟨by decide, by decide⟩
  · exact ⟨(mem_intEnc_tok h).1, (mem_intEnc_tok h).2.2⟩

theorem isoformat_ne_nil (d : DT) : isoformat d ≠ [] := by
  rw [isoformat]
  simp

theorem isoformat_ne_dash (d : DT) : isoformat d ≠ ['-'] := by
  rw [isoformat]
  intro h
  have hlen := congrArg List.length h
  have h1 : 0 < (intEnc d.wall).length :=
    List.length_pos.mpr (intEnc_ne_nil _)
  have h2 : 0 < (intEnc (d.off.getD 0)).length :=
    List.length_pos.mpr (intEnc_ne_nil _)
  simp at hlen
  omega

theorem fromisoformat_isoformat (d : DT) :
    fromisoformat (isoformat d) = some ⟨d.wall, some (d.off.getD 0)⟩ := by
  unfold fromisoformat
  rw [isoformat, splitFirst_append _ _ fun a ha => (mem_intEnc_tok ha).2.1]
  simp [intDec_intEnc]

theorem astimezone_ensure (d : DT) :
    astimezone_utc (ensure_aware d) = astimezone_utc d := by
  cases h : d.off <;> simp [ensure_aware, astimezone_utc, h]

theorem ensure_astimezone (d : DT) :
    ensure_aware (astimezone_utc d) = astimezone_utc d := rfl

theorem iso_roundtrip_utc (d : DT) :
    fromisoformat (isoformat (astimezone_utc d)) = some (astimezone_utc d) := by
  rw [fromisoformat_isoformat]
  rfl

theorem getLast?_append_sep {S T : List Char} {c : Char} (hT : T ≠ [])
    (h : (S ++ ' ' :: T).getLast? = some c) : c ∈ T := by
  cases T with
  | nil => exact absurd rfl hT
  | cons t T' =>
    rw [List.getLast?_append, List.getLast?_cons_cons] at h
    cases hg : (t :: T').getLast? with
    | none => simp [List.getLast?_eq_none_iff] at hg
    | some d =>
      rw [hg] at h
      rw [Option.or_some, Option.some.injEq] at h
      exact h ▸ getLast?_mem hg

/-- `format_entry`'s line decomposes under `parse_entry`'s splitting steps:
the first `'|'` is the separator and the (stripped) times part splits into
exactly the two tokens. -/
theorem parse_line_shape (S T txt : List Char)
    (hS : ∀ c ∈ S, c ≠ '|' ∧ c.isWhitespace = false) (hSne : S ≠ [])
    (hT : ∀ c ∈ T, c ≠ '|' ∧ c.isWhitespace = false) (hTne : T ≠ []) :
    splitFirst '|' (S ++ ' ' :: (T ++ '|' :: txt)) = some (S ++ ' ' :: T, txt)
    ∧ pySplit (pyStrip (S ++ ' ' :: T)) = [S, T] := by
  constructor
  · have hassoc : S ++ ' ' :: (T ++ '|' :: txt) = (S ++ ' ' :: T) ++ '|' :: txt := by
      simp
    rw [hassoc]
    apply splitFirst_append
    intro a ha
    rcases List.mem_append.mp ha with h | h
    · exact (hS a h).1
    · rcases List.mem_cons.mp h with h | h
      · subst h
        decide
      · exact (hT a h).1
  · have hstrip : pyStrip (S ++ ' ' :: T) = S ++ ' ' :: T := by
      apply pyStrip_eq_self
      · intro c hc
        cases S with
        | nil => exact absurd rfl hSne
        | cons s0 S' =>
          rw [List.cons_append, List.head?_cons, Option.some.injEq] at hc
          subst hc
          exact (hS s0 (List.mem_cons_self _ _)).2
      · intro c hc
        exact (hT c (getLast?_append_sep hTne hc)).2
    rw [hstrip]
    exact pySplit_sep (fun c hc => (hS c hc).2) (fun c hc => (hT c hc).2) hSne hTne

/-- `storage.format_entry`: normalize start (and end, unless open) to aware
UTC, render `"{start} {end}|{text.strip()}"` with `"-"` as the open
sentinel. -/
def format_entry (entry : SEntry) : List Char :=
  let start := astimezone_utc (ensure_aware entry.start)
  let end_str := match entry.stop with
    | none => ['-']
    | some d => isoformat (astimezone_utc (ensure_aware d))
  isoformat start ++ ' ' :: (end_str ++ '|' :: pyStrip entry.text)

/-- `storage.parse_entry`: reject lines without `'|'`; split the times part
on whitespace into exactly two columns; parse the start; `"-"` means open,
anything else is parsed as the end; strip the text.  Raised `ValueError`s
are `none`. -/
def parse_entry (raw : List Char) : Option SEntry :=
  match splitFirst '|' raw with
  | none => none
  | some (times_part, text) =>
    match pySplit (pyStrip times_part) with
    | [start_raw, end_raw] =>
      match fromisoformat start_raw with
      | none => none
      | some s =>
        if end_raw = ['-'] then some ⟨ensure_aware s, none, pyStrip text⟩
        else
          match fromisoformat end_raw with
          | none => none
          | some d => some ⟨ensure_aware s, some (ensure_aware d), pyStrip text⟩
    | _ => none

/-- Claim C10: for every entry whose start (and end, when set) is
timezone-aware and whose text equals its own stripped form, parsing the
formatted line yields the UTC-normalized entry — the same start instant, the
same end instant (or the open sentinel), and the same text. -/
theorem C10_roundtrip_spec (e : SEntry) (_hs : e.start.off ≠ none)
    (_he : ∀ d, e.stop = some d → d.off ≠ none)
    (ht : pyStrip e.text = e.text) :
    parse_entry (format_entry e)
      = some ⟨astimezone_utc e.start, e.stop.map astimezone_utc, e.text⟩
    ∧ (astimezone_utc e.start).instant = e.start.instant
    ∧ (astimezone_utc e.start).off = some 0
    ∧ (∀ d, e.stop = some d →
        (astimezone_utc d).instant = d.instant ∧ (astimezone_utc d).off = some 0)
    ∧ (e.stop = none → e.stop.map astimezone_utc = none) := by
  have hSmem : ∀ c ∈ isoformat (astimezone_utc (ensure_aware e.start)),
      c ≠ '|' ∧ c.isWhitespace = false := fun c hc => mem_isoformat_tok hc
  refine ⟨?_, ?_, rfl, ?_, ?_⟩
  · cases hstop : e.stop with
    | none =>
      have hfmt : format_entry e
          = isoformat (astimezone_utc (ensure_aware e.start))
            ++ ' ' :: (['-'] ++ '|' :: e.text) := by
        rw [format_entry, hstop, ht]
      have hdash : ∀ c ∈ ['-'], c ≠ '|' ∧ c.isWhitespace = false := by
        intro c hc
        rw [List.mem_singleton] at hc
        subst hc
        exact ⟨by decide, by decide⟩
      obtain ⟨h1, h2⟩ := parse_line_shape _ ['-'] e.text hSmem
        (isoformat_ne_nil _) hdash (by simp)
      rw [hfmt, parse_entry]
      simp only [List.singleton_append, List.cons_append, astimezone_ensure] at h1 h2 ⊢
      rw [h1]
      simp [h2, iso_roundtrip_utc, ht, ensure_astimezone]
    | some d =>
      have hfmt : format_entry e
          = isoformat (astimezone_utc (ensure_aware e.start))
            ++ ' ' :: (isoformat (astimezone_utc (ensure_aware d))
              ++ '|' :: e.text) := by
        rw [format_entry, hstop, ht]
      obtain ⟨h1, h2⟩ := parse_line_shape _ _ e.text hSmem
        (isoformat_ne_nil _) (fun c hc => mem_isoformat_tok hc) (isoformat_ne_nil _)
      rw [hfmt, parse_entry]
      simp only [List.singleton_append, List.cons_append, astimezone_ensure] at h1 h2 ⊢
      rw [h1]
      simp [h2, iso_roundtrip_utc, ht, ensure_astimezone, isoformat_ne_dash]
  · simp [DT.instant, astimezone_utc]
  · intro d _
    constructor
    · simp [DT.instant, astimezone_utc]
    · rfl
  · intro h
    rw [h]
    rfl

/-- Witness for C10: a concrete aware entry with a closed end and pre-stripped
text round-trips through the line format. -/
theorem C10_roundtrip_spec_witness :
    parse_entry (format_entry ⟨⟨120, some 60⟩, some ⟨300, some 0⟩, ['h', 'i']⟩)
      = some ⟨astimezone_utc ⟨120, some 60⟩,
          (some (⟨300, some 0⟩ : DT)).map astimezone_utc, ['h', 'i']⟩
    ∧ (astimezone_utc ⟨120, some 60⟩).instant = (⟨120, some 60⟩ : DT).instant
    ∧ (astimezone_utc ⟨120, some 60⟩).off = some 0
    ∧ (∀ d, (some (⟨300, some 0⟩ : DT)) = some d →
        (astimezone_utc d).instant = d.instant ∧ (astimezone_utc d).off = some 0)
    ∧ ((some (⟨300, some 0⟩ : DT)) = none →
        (some (⟨300, some 0⟩ : DT)).map astimezone_utc = none) :=
  C10_roundtrip_spec ⟨⟨120, some 60⟩, some ⟨300, some 0⟩, ['h', 'i']⟩
    (by decide) (fun d hd => by cases hd; decide) (by decide)
